import Mathlib

/-!
# parallel_download: range partitioning, concurrent fetch and reassembly

A shallow embedding of `src/main.go` (the downloader) and of the request handler of
`src/bin/dummy_server.go`, followed by theorems about them.

Conventions of the embedding.

* Go `int` values are modelled by `Int`.  Go's `/` and `%` truncate toward zero, so they are
  `Int.tdiv` and `Int.tmod`; a zero divisor is the run-time panic `GoPanic.divideByZero`.
  In `toRangeStrings` every intermediate value lies between `-1` and `contentLength` whenever
  the loop body runs, so 64-bit wrap-around never occurs and is not modelled.
* A Go run-time panic is the `Except.error` branch of `Except GoPanic _`; a returned Go `error`
  value is an `Option GoError` (`none` is `nil`).
* Byte strings (file contents, response bodies) are `List Byte`; header strings are `String`.
* The goroutines started by `errgroup.Group.Go` share the map `responses`, which they write
  without synchronisation.  A run is described by a `Schedule`: the order in which the tasks
  complete and whether two of their writes to the map overlap in time.  When they do, the Go
  run time ends the process with `fatal error: concurrent map writes`
  (`GoPanic.concurrentMapWrites`); when they do not, the tasks only interact through the map
  and behave as if run one after the other in the order of the schedule.
* File names are treated as on Linux: `.` and `..` always exist, the empty name does not
  exist, a name with a NUL byte is invalid and a name of more than 255 bytes is too long.
* Output written to `d.outStream` (progress lines) influences no control flow and is omitted.
-/

namespace ParallelDownload

/-! ## Run-time panics and error values -/

/-- Ways in which the Go run time ends the program that the embedding can reach: the run-time
panics, and the fatal error `concurrent map writes`. -/
inductive GoPanic where
  | divideByZero
  | indexOutOfRange
  | sliceOutOfRange
  | nilDereference
  | concurrentMapWrites
deriving DecidableEq, Repr

/-- Go `error` values: `errExist` is the package variable of `main.go`; the other constructors
are the `os` errors "no such file or directory", "file exists", "invalid argument" and "file
name too long", an error returned by `net/http`, and an error met while reading a response
body. -/
inductive GoError where
  | errExist
  | enoent
  | eexist
  | einval
  | enametoolong
  | transport (msg : String)
  | read (msg : String)
deriving DecidableEq, Repr

/-! ## `toRangeStrings` (main.go, lines 102-139) -/

/-- The struct `rangeStruct` of main.go: inclusive byte offsets. -/
structure rangeStruct where
  first : Int
  last : Int
deriving DecidableEq, Repr

/-- The loop `for n := parallelism; n > 0; n--` of `toRangeStrings`.  The first argument is the
number of iterations still to run (`n`, which counts down to zero), `i` is the running offset
and `acc` is the slice `rangeStructs` built so far. -/
def rangeLoop (length : Int) : Nat → Int → List rangeStruct → List rangeStruct
  | 0, _, acc => acc
  | n + 1, i, acc => rangeLoop length n (i + length) (acc ++ [⟨i, i + length - 1⟩])

/-- The statement `rangeStructs[len(rangeStructs)-1].last += rem`: it panics with an index out
of range on the empty slice. -/
def addToLast (rangeStructs : List rangeStruct) (rem : Int) : Except GoPanic (List rangeStruct) :=
  match rangeStructs.getLast? with
  | none => Except.error GoPanic.indexOutOfRange
  | some r => Except.ok (rangeStructs.dropLast ++ [⟨r.first, r.last + rem⟩])

/-- Lines 103-125 of `toRangeStrings`: the slice `rangeStructs` as it is when the formatting
loop starts. -/
def toRangeStructs (contentLength parallelism : Int) : Except GoPanic (List rangeStruct) :=
  let parallelism := if parallelism = 0 then 1 else parallelism
  let parallelism := if contentLength < parallelism then contentLength else parallelism
  if parallelism = 0 then Except.error GoPanic.divideByZero
  else
    let length := contentLength.tdiv parallelism
    let rangeStructs := rangeLoop length parallelism.toNat 0 []
    let rem := contentLength.tmod parallelism
    if rem ≠ 0 then addToLast rangeStructs rem else Except.ok rangeStructs

/-- The call `fmt.Sprintf("bytes=%d-%d", rangeStruct.first, rangeStruct.last)`; `%d` prints an
`int` in decimal, with a leading minus sign when negative, as `toString` does on `Int`. -/
def sprintfBytes (r : rangeStruct) : String :=
  "bytes=" ++ toString r.first ++ "-" ++ toString r.last

/-- The function `toRangeStrings` of main.go: the returned pair is (`rangeStrings`, error).
The only `return` of the source returns a `nil` error. -/
def toRangeStrings (contentLength parallelism : Int) :
    Except GoPanic (List String × Option GoError) :=
  match toRangeStructs contentLength parallelism with
  | Except.error p => Except.error p
  | Except.ok rangeStructs => Except.ok (rangeStructs.map sprintfBytes, none)

/-! ## The environment: file system and network -/

/-- One byte of a file or of a response body. -/
abbrev Byte := Fin 256

/-- The bytes of an ASCII string literal. -/
def bytesOf (s : String) : List Byte :=
  s.toList.map (fun c => (Fin.ofNat c.toNat : Fin 256))

/-- The part of the file system the program touches: the files of the working directory, by
name. -/
abbrev FS := List (String × List Byte)

/-- The error the operating system reports for a name that no directory entry can bear: the
empty name, a name with a NUL byte, a name of more than 255 bytes. -/
def nameError (filename : String) : Option GoError :=
  if filename = "" then some GoError.enoent
  else if (Char.ofNat 0) ∈ filename.toList then some GoError.einval
  else if 255 < filename.utf8ByteSize then some GoError.enametoolong
  else none

/-- The call `os.Stat(filename)`, reduced to its error result: `none` when the file exists
(the entries `.` and `..` always do), otherwise the error of the name or "no such file". -/
def osStat (fs : FS) (filename : String) : Option GoError :=
  match fs.lookup filename with
  | some _ => none
  | none =>
    if filename = "." ∨ filename = ".." then none
    else
      match nameError filename with
      | some e => some e
      | none => some GoError.enoent

/-- The function `os.IsNotExist`. -/
def osIsNotExist : Option GoError → Bool
  | some GoError.enoent => true
  | _ => false

/-- The call `os.OpenFile(filename, os.O_CREATE|os.O_EXCL|os.O_WRONLY, 0644)` in a writable
directory: it fails when the file exists or the name is in error, and creates an empty file
otherwise. -/
def osOpenFile (fs : FS) (filename : String) : Except GoError FS :=
  match osStat fs filename with
  | none => Except.error GoError.eexist
  | some GoError.enoent =>
    if filename = "" then Except.error GoError.enoent
    else Except.ok (fs ++ [(filename, [])])
  | some e => Except.error e

/-- Appending bytes to the open file `filename`. -/
def fileWrite (fs : FS) (filename : String) (bytes : List Byte) : FS :=
  fs.map (fun e => if e.1 = filename then (e.1, e.2 ++ bytes) else e)

/-- The call `os.Remove(filename)`. -/
def osRemove (fs : FS) (filename : String) : FS :=
  fs.filter (fun e => e.1 ≠ filename)

/-- The fields of `http.Response` the program can observe.  `Body` is the bytes the body reader
delivers and `bodyErr` the error it then returns (`none` for a clean end of stream). -/
structure Response where
  StatusCode : Int
  ContentLength : Int
  Body : List Byte
  bodyErr : Option GoError
deriving DecidableEq, Repr

/-- The remote side: what `http.Head(url)` returns, and what `client.Do` returns for a GET of
`url` carrying the given `Range` header. -/
structure Network where
  head : String → Except GoError Response
  get : String → String → Except GoError Response

/-- A network call made by the program. -/
inductive Request where
  | head (url : String)
  | get (url : String) (range : String)
deriving DecidableEq, Repr

/-- The function `path.Split` of the Go library: the text up to and including the final
slash, and the text after it. -/
def pathSplit (p : String) : String × String :=
  let file := (p.toList.reverse.takeWhile (fun c => c ≠ '/')).reverse
  (String.mk (p.toList.take (p.toList.length - file.length)), String.mk file)

/-! ## `download` (main.go, lines 27-100) -/

/-- The struct `downloader` of main.go, without its output stream. -/
structure downloader where
  url : String
  parallelism : Int
deriving DecidableEq, Repr

/-- The function `newDownloader` of main.go: the parallelism is the constant 8. -/
def newDownloader (url : String) : downloader :=
  ⟨url, 8⟩

/-- The map `responses` of `download`, of type `map[int]*http.Response`. -/
abbrev ResponseMap := List (Nat × Response)

/-- The assignment `responses[i] = resp`. -/
def mapStore (m : ResponseMap) (i : Nat) (resp : Response) : ResponseMap :=
  (i, resp) :: m.filter (fun e => e.1 ≠ i)

/-- The expression `responses[i]`; `none` is the nil pointer read for a missing key. -/
def mapIndex (m : ResponseMap) (i : Nat) : Option Response :=
  m.lookup i

/-- What the fetch tasks have produced so far: the map `responses`, the error that `eg.Wait()`
will return (the first non-nil error of a task), the GET requests made, and the number of
assignments `responses[i] = resp` executed. -/
structure FetchState where
  responses : ResponseMap
  err : Option GoError
  requests : List Request
  stores : Nat
deriving DecidableEq, Repr

/-- One run of the goroutines started by `eg.Go`: the order in which the tasks complete, and
whether two of their assignments to the map `responses` overlap in time. -/
structure Schedule where
  order : List Nat
  overlap : Bool
deriving DecidableEq, Repr

/-- The closure passed to `eg.Go` for index `i` and header `rangeString` (lines 60-77). -/
def fetchTask (net : Network) (url : String) (i : Nat) (rangeString : String)
    (st : FetchState) : FetchState :=
  match net.get url rangeString with
  | Except.error e =>
    ⟨st.responses, (match st.err with | some e0 => some e0 | none => some e),
      st.requests ++ [Request.get url rangeString], st.stores⟩
  | Except.ok resp =>
    ⟨mapStore st.responses i resp, st.err, st.requests ++ [Request.get url rangeString],
      st.stores + 1⟩

/-- The tasks started by the loop of lines 57-78, completing in the given order, as they
behave when their writes to `responses` do not overlap. -/
def runInOrder (net : Network) (url : String) (rangeStrings : List String) (order : List Nat) :
    FetchState :=
  order.foldl
    (fun st i =>
      match rangeStrings[i]? with
      | none => st
      | some rangeString => fetchTask net url i rangeString st)
    ⟨[], none, [], 0⟩

/-- The goroutines started by the loop of lines 57-78 up to the return of `eg.Wait()`, under
the schedule `sched`.  The assignment of line 75 is an unsynchronised write to a map shared by
the goroutines: when two such writes are made and overlap, the run time ends the program. -/
def runTasks (net : Network) (url : String) (rangeStrings : List String) (sched : Schedule) :
    Except GoPanic FetchState :=
  if sched.overlap = true ∧ 2 ≤ (runInOrder net url rangeStrings sched.order).stores then
    Except.error GoPanic.concurrentMapWrites
  else Except.ok (runInOrder net url rangeStrings sched.order)

/-- The loop `for i := 0; i < len(responses); i++` of lines 88-95.  The first numeric argument
is the number of iterations left, the second is `i`.  `io.Copy` appends the body to the file;
when the body reader fails, the file is removed and the error returned. -/
def writeLoop (responses : ResponseMap) (filename : String) :
    Nat → Nat → FS → Except GoPanic (Option GoError × FS)
  | 0, _, fs => Except.ok (none, fs)
  | k + 1, i, fs =>
    match mapIndex responses i with
    | none => Except.error GoPanic.nilDereference
    | some resp =>
      match resp.bodyErr with
      | some e => Except.ok (some e, osRemove (fileWrite fs filename resp.Body) filename)
      | none => writeLoop responses filename k (i + 1) (fileWrite fs filename resp.Body)

/-- What a run of `download` leaves behind: the returned error, the file system and the
network calls made, in order. -/
structure Outcome where
  err : Option GoError
  fs : FS
  requests : List Request
deriving DecidableEq, Repr

/-- Lines 54-99 of `download`: the fetch tasks, `eg.Wait()`, the creation of the output file
and the write loop.  `requests` lists the GET requests made. -/
def fetchAndWrite (net : Network) (url filename : String) (rangeStrings : List String)
    (fs : FS) (sched : Schedule) : Except GoPanic Outcome :=
  match runTasks net url rangeStrings sched with
  | Except.error p => Except.error p
  | Except.ok st =>
    match st.err with
    | some e => Except.ok ⟨some e, fs, st.requests⟩
    | none =>
      match osOpenFile fs filename with
      | Except.error e => Except.ok ⟨some e, fs, st.requests⟩
      | Except.ok fs1 =>
        match writeLoop st.responses filename st.responses.length 0 fs1 with
        | Except.error p => Except.error p
        | Except.ok (e, fs2) => Except.ok ⟨e, fs2, st.requests⟩

/-- The method `download` of main.go.  The conversion `int(resp.ContentLength)` is the identity
on a 64-bit platform.  `http.NewRequest` cannot fail in a task, since `http.Head` has accepted
the same URL. -/
def download (d : downloader) (net : Network) (fs : FS) (sched : Schedule) :
    Except GoPanic Outcome :=
  let filename := (pathSplit d.url).2
  if !osIsNotExist (osStat fs filename) then Except.ok ⟨some GoError.errExist, fs, []⟩
  else
    match net.head d.url with
    | Except.error e => Except.ok ⟨some e, fs, [Request.head d.url]⟩
    | Except.ok resp =>
      match toRangeStrings resp.ContentLength d.parallelism with
      | Except.error p => Except.error p
      | Except.ok (_, some e) => Except.ok ⟨some e, fs, [Request.head d.url]⟩
      | Except.ok (rangeStrings, none) =>
        match fetchAndWrite net d.url filename rangeStrings fs sched with
        | Except.error p => Except.error p
        | Except.ok o => Except.ok ⟨o.err, o.fs, Request.head d.url :: o.requests⟩

/-! ## The request handler of the dummy server (bin/dummy_server.go, lines 45-76) -/

/-- The call `strings.Split(s, sep)` for a separator of one character. -/
def stringsSplit (sep : Char) : List Char → List (List Char)
  | [] => [[]]
  | c :: cs =>
    if c = sep then [] :: stringsSplit sep cs
    else
      match stringsSplit sep cs with
      | [] => [[c]]
      | p :: ps => (c :: p) :: ps

/-- The decimal value of a string of digits, `none` when a character is not a digit; `acc` is
the value read so far. -/
def parseDigits : List Char → Nat → Option Nat
  | [], acc => some acc
  | c :: cs, acc =>
    if 48 ≤ c.toNat ∧ c.toNat ≤ 57 then parseDigits cs (acc * 10 + (c.toNat - 48)) else none

/-- The value of an optionally negated magnitude, clamped to the 64-bit range as
`strconv.Atoi` does on a range error. -/
def clampInt64 (neg : Bool) (n : Nat) : Int :=
  if neg then (if n ≤ 2 ^ 63 then -(n : Int) else -(2 ^ 63 : Int))
  else (if n < 2 ^ 63 then (n : Int) else (2 ^ 63 - 1 : Int))

/-- The value returned by `strconv.Atoi`; its error result, which the dummy server discards,
is omitted.  A syntax error gives 0. -/
def strconvAtoi (s : List Char) : Int :=
  match s with
  | [] => 0
  | c :: cs =>
    let neg := decide (c = '-')
    let digits := if c = '-' ∨ c = '+' then cs else c :: cs
    match digits with
    | [] => 0
    | _ :: _ =>
      match parseDigits digits 0 with
      | none => 0
      | some n => clampInt64 neg n

/-- The slice expression `contents[lo:hi]` on a Go string. -/
def goSlice (contents : List Byte) (lo hi : Int) : Except GoPanic (List Byte) :=
  if 0 ≤ lo ∧ lo ≤ hi ∧ hi ≤ (contents.length : Int) then
    Except.ok ((contents.drop lo.toNat).take (hi - lo).toNat)
  else Except.error GoPanic.sliceOutOfRange

/-- The inner function of the handler (lines 58-67): the body served for a `Range` header. -/
def rangeBody (contents : List Byte) (rangeHeader : String) : Except GoPanic (List Byte) :=
  if rangeHeader = "" then Except.ok contents
  else
    match (stringsSplit '=' rangeHeader.toList)[1]? with
    | none => Except.error GoPanic.indexOutOfRange
    | some v =>
      match stringsSplit '-' v with
      | c0 :: c1 :: _ => goSlice contents (strconvAtoi c0) (strconvAtoi c1 + 1)
      | _ => Except.error GoPanic.indexOutOfRange

/-- The handler of the dummy server, as status code and body.  `roll` is the value of
`rand.Intn(100)` drawn for the request; the random delay is omitted. -/
def handler (contents : List Byte) (failureRate roll : Int) (method rangeHeader : String) :
    Except GoPanic (Int × List Byte) :=
  if method = "GET" ∧ roll < failureRate then
    Except.ok (500, bytesOf "Internal Server Error")
  else
    match rangeBody contents rangeHeader with
    | Except.error p => Except.error p
    | Except.ok body => Except.ok (206, body)

/-- The dummy server seen from the client.  `rolls` gives the random draw made for the GET
carrying a given `Range` header.  A HEAD request carries no `Range` header and its response
has no body; a panic of the handler reaches the client as a transport error. -/
def dummyServer (contents : List Byte) (failureRate : Int) (rolls : String → Int) : Network :=
  ⟨fun _ =>
      match handler contents failureRate 0 "HEAD" "" with
      | Except.error _ => Except.error (GoError.transport "EOF")
      | Except.ok (status, body) => Except.ok ⟨status, body.length, [], none⟩,
    fun _ rangeHeader =>
      match handler contents failureRate (rolls rangeHeader) "GET" rangeHeader with
      | Except.error _ => Except.error (GoError.transport "EOF")
      | Except.ok (status, body) => Except.ok ⟨status, body.length, body, none⟩⟩

/-! ## Auxiliary notions used by the statements -/

/-- Spec side of the partitioner: `q` consecutive ranges of size `base` starting at offset 0,
the last one extended to end at `L - 1`. -/
def remainderToLastPlan (L base : Int) (q : Nat) : List rangeStruct :=
  (List.range q).map
    (fun (i : Nat) => ⟨(i : Int) * base, if i + 1 = q then L - 1 else ((i : Int) + 1) * base - 1⟩)

/-- A list of ranges is chained from `s` to `e` when the first range starts at `s`, each range
is non-empty and followed by a range that starts right after it, and the last one ends at
`e - 1`. -/
def Chained : Int → List rangeStruct → Int → Prop
  | s, [], e => s = e
  | s, r :: rs, e => r.first = s ∧ r.first ≤ r.last ∧ Chained (r.last + 1) rs e

/-- The bytes `a..b` (inclusive) of `content`. -/
def bytesBetween (content : List Byte) (a b : Int) : List Byte :=
  (content.drop a.toNat).take (b + 1 - a).toNat

/-- The body of the response to a GET, empty when the request failed. -/
def bodyOf : Except GoError Response → List Byte
  | Except.ok resp => resp.Body
  | Except.error _ => []

/-- A server that ignores the `Range` header: every GET is answered with status 200 and the
full content. -/
def rangeIgnoringServer (content : List Byte) : Network :=
  ⟨fun _ => Except.ok ⟨200, content.length, [], none⟩,
    fun _ _ => Except.ok ⟨200, content.length, content, none⟩⟩

/-- Random draws of the dummy server under which, at a failure rate of 50, the GET carrying
`bytes=0-0` is answered with status 500 and every other GET is served. -/
def flakyRolls (rangeHeader : String) : Int :=
  if rangeHeader = "bytes=0-0" then 10 else 90

/-- A network on which HEAD reports the given content length and every GET fails. -/
def headOnlyServer (contentLength : Int) : Network :=
  ⟨fun _ => Except.ok ⟨200, contentLength, [], none⟩,
    fun _ _ => Except.error (GoError.transport "connection refused")⟩

/-- A network that serves the ranges of `content` like the dummy server, except that the GET
for the header `bad` fails in transport. -/
def brokenLinkServer (content : List Byte) (bad : String) : Network :=
  ⟨(dummyServer content 0 (fun _ => 0)).head,
    fun url rangeHeader =>
      if rangeHeader = bad then Except.error (GoError.transport "connection reset")
      else (dummyServer content 0 (fun _ => 0)).get url rangeHeader⟩

/-! ## Lemmas -/

theorem rangeLoop_eq (length : Int) (n : Nat) (i : Int) (acc : List rangeStruct) :
    rangeLoop length n i acc
      = acc ++ (List.range n).map
          (fun (k : Nat) => (⟨i + (k : Int) * length, i + ((k : Int) + 1) * length - 1⟩ : rangeStruct)) := by
  induction n generalizing i acc with
  | zero => simp [rangeLoop]
  | succ n ih =>
    rw [rangeLoop, ih, List.range_succ_eq_map, List.map_cons, List.map_map, List.append_assoc]
    congr 1
    simp only [List.singleton_append, Nat.cast_zero, zero_mul, add_zero, zero_add, one_mul]
    congr 1
    apply List.map_congr_left
    intro k _
    simp only [Function.comp, Nat.succ_eq_add_one, Nat.cast_add, Nat.cast_one]
    congr 1 <;> ring

theorem remainderToLastPlan_succ (L base : Int) (m : Nat) :
    remainderToLastPlan L base (m + 1)
      = (List.range m).map
          (fun (k : Nat) => (⟨(k : Int) * base, ((k : Int) + 1) * base - 1⟩ : rangeStruct))
        ++ [⟨(m : Int) * base, L - 1⟩] := by
  unfold remainderToLastPlan
  rw [List.range_succ, List.map_append]
  congr 1
  · apply List.map_congr_left
    intro k hk
    have hk2 : k < m := List.mem_range.mp hk
    have : ¬ (k + 1 = m + 1) := by omega
    simp [this]
  · simp

theorem rangeStructs_core (L : Int) (q : Nat) (hq : 1 ≤ q) (hqL : (q : Int) ≤ L) :
    (if L.tmod q ≠ 0 then addToLast (rangeLoop (L.tdiv q) q 0 []) (L.tmod q)
      else Except.ok (rangeLoop (L.tdiv q) q 0 []))
      = Except.ok (remainderToLastPlan L (L / (q : Int)) q) := by
  have hq0 : (0 : Int) ≤ (q : Int) := Int.ofNat_nonneg q
  have hL0 : (0 : Int) ≤ L := le_trans hq0 hqL
  rw [Int.tdiv_eq_ediv hL0 hq0, Int.tmod_eq_emod hL0 hq0]
  obtain ⟨m, rfl⟩ : ∃ m, q = m + 1 := ⟨q - 1, by omega⟩
  have hsum : ((m + 1 : Nat) : Int) * (L / ((m + 1 : Nat) : Int)) + L % ((m + 1 : Nat) : Int) = L :=
    Int.ediv_add_emod L _
  rw [remainderToLastPlan_succ, rangeLoop_eq, List.range_succ, List.map_append]
  simp only [List.nil_append, zero_add, List.map_cons, List.map_nil]
  split
  · rw [addToLast, List.getLast?_concat]
    simp only [List.dropLast_concat]
    congr 3
    push_cast at hsum ⊢
    rw [rangeStruct.mk.injEq]
    exact ⟨rfl, by linarith⟩
  · rename_i h
    have h0 : L % ((m + 1 : Nat) : Int) = 0 := by
      by_contra hne
      exact h hne
    congr 3
    push_cast at hsum h0 ⊢
    rw [h0] at hsum
    rw [rangeStruct.mk.injEq]
    exact ⟨rfl, by linarith⟩

/-- Closed form of lines 103-125 for a positive content length: the effective parallelism is
1 when `parallelism = 0` and `min parallelism contentLength` otherwise. -/
theorem toRangeStructs_eq (L p : Int) (hL : 1 ≤ L) (hp : 0 ≤ p) :
    toRangeStructs L p
      = Except.ok (remainderToLastPlan L (L / (if p = 0 then 1 else min p L))
          (if p = 0 then 1 else min p L).toNat) := by
  set e : Int := if p = 0 then 1 else min p L with he
  have he1 : 1 ≤ e := by
    rw [he]; split
    · exact le_refl 1
    · exact le_min (by omega) hL
  have heL : e ≤ L := by
    rw [he]; split
    · exact hL
    · exact min_le_right _ _
  have hcast : ((e.toNat : Nat) : Int) = e := Int.toNat_of_nonneg (by omega)
  have hcore := rangeStructs_core L e.toNat (by omega) (by rw [hcast]; exact heL)
  rw [hcast] at hcore
  have heff : (if L < (if p = 0 then 1 else p) then L else (if p = 0 then 1 else p)) = e := by
    rw [he]
    by_cases h0 : p = 0
    · simp only [h0, if_true]
      have : ¬ (L < 1) := by omega
      simp [this]
    · simp only [h0, if_false]
      by_cases hlt : L < p
      · simp [hlt, min_eq_right (le_of_lt hlt)]
      · simp [hlt, min_eq_left (not_lt.mp hlt)]
  unfold toRangeStructs
  simp only [heff]
  have hne : ¬ (e = 0) := by omega
  rw [if_neg hne]
  exact hcore

theorem chained_plan_aux (L base : Int) (q : Nat) (hb : 1 ≤ base) (hqb : (q : Int) * base ≤ L)
    (n s : Nat) (hs : s + (n + 1) = q) :
    Chained ((s : Int) * base)
      ((List.range' s (n + 1)).map
        (fun (i : Nat) =>
          (⟨(i : Int) * base, if i + 1 = q then L - 1 else ((i : Int) + 1) * base - 1⟩ : rangeStruct)))
      L := by
  induction n generalizing s with
  | zero =>
    have hq : s + 1 = q := by omega
    have hc : (q : Int) = (s : Int) + 1 := by rw [← hq]; push_cast; ring
    rw [hc] at hqb
    have hexp : ((s : Int) + 1) * base = (s : Int) * base + base := by ring
    simp only [List.range', List.map_cons, List.map_nil, Chained, hq, if_true]
    refine ⟨trivial, ?_, ?_⟩
    · linarith
    · ring
  | succ n ih =>
    have hne : ¬ (s + 1 = q) := by omega
    have hexp : ((s : Int) + 1) * base = (s : Int) * base + base := by ring
    have hrec := ih (s + 1) (by omega)
    rw [List.range'_succ, List.map_cons]
    simp only [Chained, hne, if_false]
    refine ⟨trivial, by linarith, ?_⟩
    have hcast : (((s + 1 : Nat) : Int)) * base = ((s : Int) + 1) * base - 1 + 1 := by
      push_cast; ring
    rw [← hcast]
    exact hrec

theorem remainderToLastPlan_chained (L base : Int) (q : Nat) (hq : 1 ≤ q) (hb : 1 ≤ base)
    (hqb : (q : Int) * base ≤ L) : Chained 0 (remainderToLastPlan L base q) L := by
  obtain ⟨n, rfl⟩ : ∃ n, q = n + 1 := ⟨q - 1, by omega⟩
  have h := chained_plan_aux L base (n + 1) hb hqb n 0 (by omega)
  unfold remainderToLastPlan
  rw [List.range_eq_range']
  simpa using h

theorem chained_bounds {s e : Int} {rs : List rangeStruct} (h : Chained s rs e) :
    s ≤ e ∧ ∀ r ∈ rs, s ≤ r.first ∧ r.first ≤ r.last ∧ r.last < e := by
  induction rs generalizing s with
  | nil => simp only [Chained] at h; exact ⟨le_of_eq h, by simp⟩
  | cons r rs ih =>
    obtain ⟨h1, h2, h3⟩ := h
    obtain ⟨h4, h5⟩ := ih h3
    refine ⟨by omega, ?_⟩
    intro x hx
    rcases List.mem_cons.mp hx with rfl | hx
    · exact ⟨by omega, h2, by omega⟩
    · obtain ⟨a, b, c⟩ := h5 x hx
      exact ⟨by omega, b, c⟩

theorem chained_head {s e : Int} {rs : List rangeStruct} (h : Chained s rs e) (hne : rs ≠ []) :
    rs.head?.map rangeStruct.first = some s := by
  cases rs with
  | nil => exact absurd rfl hne
  | cons r rs => simp [h.1]

theorem chained_getLast {s e : Int} {rs : List rangeStruct} (h : Chained s rs e) (hne : rs ≠ []) :
    rs.getLast?.map rangeStruct.last = some (e - 1) := by
  induction rs generalizing s with
  | nil => exact absurd rfl hne
  | cons r rs ih =>
    obtain ⟨_, _, h3⟩ := h
    cases rs with
    | nil =>
      simp only [Chained] at h3
      simp only [List.getLast?_singleton, Option.map]
      congr 1; omega
    | cons r2 rs2 =>
      rw [List.getLast?_cons_cons]
      exact ih h3 (by simp)

theorem chained_adjacent {s e : Int} {rs : List rangeStruct} (h : Chained s rs e) (i : Nat)
    (a b : rangeStruct) (ha : rs[i]? = some a) (hb : rs[i + 1]? = some b) :
    a.last + 1 = b.first := by
  induction rs generalizing s i with
  | nil => simp at ha
  | cons r rs ih =>
    obtain ⟨_, _, h3⟩ := h
    cases i with
    | zero =>
      cases rs with
      | nil => simp at hb
      | cons r2 rs2 =>
        simp only [List.getElem?_cons_zero, Option.some.injEq] at ha
        simp only [zero_add, List.getElem?_cons_succ, List.getElem?_cons_zero,
          Option.some.injEq] at hb
        subst ha; subst hb
        exact h3.1.symm
    | succ j =>
      simp only [List.getElem?_cons_succ] at ha hb
      exact ih h3 j ha hb

theorem chained_countP {s e : Int} {rs : List rangeStruct} (h : Chained s rs e) (x : Int) :
    (x < s → rs.countP (fun r => decide (r.first ≤ x ∧ x ≤ r.last)) = 0)
    ∧ (s ≤ x → x < e → rs.countP (fun r => decide (r.first ≤ x ∧ x ≤ r.last)) = 1) := by
  induction rs generalizing s with
  | nil =>
    simp only [Chained] at h
    exact ⟨fun _ => rfl, fun h1 h2 => by omega⟩
  | cons r rs ih =>
    obtain ⟨h1, h2, h3⟩ := h
    obtain ⟨ih0, ih1⟩ := ih h3
    constructor
    · intro hx
      have hn : ¬ (r.first ≤ x ∧ x ≤ r.last) := by omega
      rw [List.countP_cons_of_neg _ _ (by simpa using hn)]
      exact ih0 (by omega)
    · intro hx hxe
      by_cases hin : x ≤ r.last
      · have hp : r.first ≤ x ∧ x ≤ r.last := ⟨by omega, hin⟩
        rw [List.countP_cons_of_pos _ _ (by simpa using hp), ih0 (by omega)]
      · have hn : ¬ (r.first ≤ x ∧ x ≤ r.last) := by omega
        rw [List.countP_cons_of_neg _ _ (by simpa using hn)]
        exact ih1 (by omega) hxe

theorem chained_sum {s e : Int} {rs : List rangeStruct} (h : Chained s rs e) :
    (rs.map (fun r => r.last - r.first + 1)).sum = e - s := by
  induction rs generalizing s with
  | nil => simp only [Chained] at h; simp [h]
  | cons r rs ih =>
    obtain ⟨h1, h2, h3⟩ := h
    rw [List.map_cons, List.sum_cons, ih h3]
    omega

theorem chained_flatten (content : List Byte) {s e : Int} {rs : List rangeStruct}
    (h : Chained s rs e) (hs : 0 ≤ s) :
    (rs.map (fun r => bytesBetween content r.first r.last)).flatten
      = (content.drop s.toNat).take (e - s).toNat := by
  induction rs generalizing s with
  | nil => simp only [Chained] at h; simp [h]
  | cons r rs ih =>
    obtain ⟨h1, h2, h3⟩ := h
    rw [List.map_cons, List.flatten_cons, ih h3 (by omega)]
    obtain ⟨h4, _⟩ := chained_bounds h3
    unfold bytesBetween
    obtain ⟨a, rfl⟩ : ∃ a : Nat, s = a := ⟨s.toNat, (Int.toNat_of_nonneg hs).symm⟩
    obtain ⟨k, hk⟩ : ∃ k : Nat, r.last + 1 - r.first = k :=
      ⟨(r.last + 1 - r.first).toNat, (Int.toNat_of_nonneg (by omega)).symm⟩
    obtain ⟨j, hj⟩ : ∃ j : Nat, e - (r.last + 1) = j :=
      ⟨(e - (r.last + 1)).toNat, (Int.toNat_of_nonneg (by omega)).symm⟩
    have e1 : r.first.toNat = a := by omega
    have e2 : (r.last + 1 - r.first).toNat = k := by omega
    have e3 : (r.last + 1).toNat = a + k := by omega
    have e4 : (e - (r.last + 1)).toNat = j := by omega
    have e5 : (e - (a : Int)).toNat = k + j := by omega
    rw [e1, e2, e3, e4, e5, ← List.drop_drop, List.take_add, Int.toNat_ofNat]

theorem plan_facts (L p : Int) (hL : 1 ≤ L) (hp : 0 ≤ p) :
    1 ≤ (if p = 0 then 1 else min p L).toNat
    ∧ Chained 0 (remainderToLastPlan L (L / (if p = 0 then 1 else min p L))
        (if p = 0 then 1 else min p L).toNat) L := by
  set e : Int := if p = 0 then 1 else min p L with he
  have he1 : 1 ≤ e := by
    rw [he]; split
    · exact le_refl 1
    · exact le_min (by omega) hL
  have heL : e ≤ L := by
    rw [he]; split
    · exact hL
    · exact min_le_right _ _
  have hcast : ((e.toNat : Nat) : Int) = e := Int.toNat_of_nonneg (by omega)
  have hb : 1 ≤ L / e := Int.le_ediv_of_mul_le (by omega) (by omega)
  have hqb : e * (L / e) ≤ L := Int.mul_ediv_self_le (by omega)
  refine ⟨by omega, ?_⟩
  exact remainderToLastPlan_chained L (L / e) e.toNat (by omega) hb (by rw [hcast]; exact hqb)

theorem toRangeStrings_of_structs {L p : Int} {rs : List rangeStruct}
    (h : toRangeStructs L p = Except.ok rs) :
    toRangeStrings L p = Except.ok (rs.map sprintfBytes, none) := by
  unfold toRangeStrings
  rw [h]

theorem remainderToLastPlan_length (L base : Int) (q : Nat) :
    (remainderToLastPlan L base q).length = q := by
  simp [remainderToLastPlan]

theorem lookup_none_ne {α β : Type} [BEq α] [LawfulBEq α] (k : α) (l : List (α × β))
    (h : l.lookup k = none) : ∀ e ∈ l, e.1 ≠ k := by
  induction l with
  | nil => simp
  | cons x l ih =>
    obtain ⟨a, b⟩ := x
    rw [List.lookup_cons] at h
    cases hka : (k == a) with
    | true => rw [hka] at h; simp at h
    | false =>
      rw [hka] at h
      intro e he
      rcases List.mem_cons.mp he with rfl | he
      · intro hc
        simp only at hc
        subst hc
        simp at hka
      · exact ih h e he

theorem fileWrite_nil (fs : FS) (f : String) : fileWrite fs f [] = fs := by
  unfold fileWrite
  conv_rhs => rw [← List.map_id fs]
  apply List.map_congr_left
  intro e _
  split <;> simp

theorem fileWrite_fileWrite (fs : FS) (f : String) (a b : List Byte) :
    fileWrite (fileWrite fs f a) f b = fileWrite fs f (a ++ b) := by
  unfold fileWrite
  rw [List.map_map]
  apply List.map_congr_left
  intro e _
  simp only [Function.comp]
  by_cases h : e.1 = f
  · simp [h]
  · simp [h]

theorem fileWrite_absent (fs : FS) (f : String) (b : List Byte) (h : fs.lookup f = none) :
    fileWrite fs f b = fs := by
  unfold fileWrite
  conv_rhs => rw [← List.map_id fs]
  apply List.map_congr_left
  intro e he
  have := lookup_none_ne f fs h e he
  simp [this]

theorem fileWrite_created (fs : FS) (f : String) (c b : List Byte) (h : fs.lookup f = none) :
    fileWrite (fs ++ [(f, c)]) f b = fs ++ [(f, c ++ b)] := by
  have h1 := fileWrite_absent fs f b h
  unfold fileWrite at h1 ⊢
  rw [List.map_append, h1]
  simp

/-- Storing under a key that is not yet present adds one entry. -/
theorem mapStore_fresh (m : ResponseMap) (i : Nat) (r : Response) (h : mapIndex m i = none) :
    mapStore m i r = (i, r) :: m := by
  unfold mapStore
  congr 1
  apply List.filter_eq_self.mpr
  intro e he
  have := lookup_none_ne i m h e he
  simp [this]

theorem mapIndex_cons (m : ResponseMap) (i j : Nat) (r : Response) :
    mapIndex ((i, r) :: m) j = if j = i then some r else mapIndex m j := by
  unfold mapIndex
  rw [List.lookup_cons]
  by_cases h : j = i
  · simp [h]
  · have : (j == i) = false := by simpa using h
    simp [this, h]

theorem runInOrder_snoc (net : Network) (url : String) (rangeStrings : List String)
    (l : List Nat) (i : Nat) :
    runInOrder net url rangeStrings (l ++ [i])
      = match rangeStrings[i]? with
        | none => runInOrder net url rangeStrings l
        | some rangeString => fetchTask net url i rangeString (runInOrder net url rangeStrings l) := by
  unfold runInOrder
  rw [List.foldl_append]
  rfl

theorem runInOrder_all_ok (net : Network) (url : String) (rangeStrings : List String)
    (hget : ∀ s ∈ rangeStrings, ∃ r, net.get url s = Except.ok r)
    (sched : List Nat) (hnd : sched.Nodup) (hlt : ∀ i ∈ sched, i < rangeStrings.length) :
    (runInOrder net url rangeStrings sched).err = none
    ∧ (runInOrder net url rangeStrings sched).responses.length = sched.length
    ∧ (∀ i, i ∉ sched → mapIndex (runInOrder net url rangeStrings sched).responses i = none)
    ∧ (∀ i (h : i < rangeStrings.length), i ∈ sched →
        ∃ r, net.get url rangeStrings[i] = Except.ok r
          ∧ mapIndex (runInOrder net url rangeStrings sched).responses i = some r) := by
  induction sched using List.reverseRecOn with
  | nil =>
    refine ⟨rfl, rfl, fun i _ => rfl, ?_⟩
    intro i _ hi
    simp at hi
  | append_singleton l i ih =>
    have hnd2 : l.Nodup ∧ i ∉ l := by
      have := List.nodup_append.mp hnd
      refine ⟨this.1, ?_⟩
      intro hil
      exact this.2.2 hil (List.mem_singleton.mpr rfl)
    obtain ⟨ih1, ih2, ih3, ih4⟩ := ih hnd2.1 (fun j hj => hlt j (List.mem_append_left _ hj))
    have hi : i < rangeStrings.length := hlt i (by simp)
    have hsome : rangeStrings[i]? = some rangeStrings[i] := List.getElem?_eq_getElem hi
    obtain ⟨r, hr⟩ := hget rangeStrings[i] (List.getElem_mem hi)
    have hstep : runInOrder net url rangeStrings (l ++ [i])
        = ⟨(i, r) :: (runInOrder net url rangeStrings l).responses, none,
            (runInOrder net url rangeStrings l).requests ++ [Request.get url rangeStrings[i]],
            (runInOrder net url rangeStrings l).stores + 1⟩ := by
      rw [runInOrder_snoc, hsome]
      simp only [fetchTask, hr, ih1]
      rw [mapStore_fresh _ _ _ (ih3 i hnd2.2)]
    rw [hstep]
    refine ⟨rfl, by simp [ih2], ?_, ?_⟩
    · intro j hj
      have hj1 : j ≠ i := by
        intro h; apply hj; simp [h]
      have hj2 : j ∉ l := by
        intro h; apply hj; simp [h]
      rw [mapIndex_cons, if_neg hj1]
      exact ih3 j hj2
    · intro j hjlt hj
      rw [mapIndex_cons]
      by_cases hji : j = i
      · subst hji
        exact ⟨r, hr, by simp⟩
      · rw [if_neg hji]
        have hjl : j ∈ l := by
          rcases List.mem_append.mp hj with h | h
          · exact h
          · exact absurd (List.mem_singleton.mp h) hji
        exact ih4 j hjlt hjl

theorem writeLoop_ok (m : ResponseMap) (f : String) (N : Nat) (B : Nat → List Byte)
    (hm : ∀ i, i < N → ∃ r, mapIndex m i = some r ∧ r.bodyErr = none ∧ r.Body = B i)
    (k i : Nat) (fs : FS) (hik : i + k ≤ N) :
    writeLoop m f k i fs
      = Except.ok (none, fileWrite fs f ((List.range' i k).map B).flatten) := by
  induction k generalizing i fs with
  | zero => simp [writeLoop, fileWrite_nil]
  | succ k ih =>
    obtain ⟨r, h1, h2, h3⟩ := hm i (by omega)
    rw [writeLoop]
    simp only [h1, h2, h3]
    rw [ih (i + 1) _ (by omega), fileWrite_fileWrite, List.range'_succ, List.map_cons,
      List.flatten_cons]

theorem map_range_getElem (l : List String) (g : String → List Byte) :
    (List.range' 0 l.length).map
        (fun i => match l[i]? with
          | some s => g s
          | none => [])
      = l.map g := by
  apply List.ext_getElem
  · simp
  · intro n h1 h2
    simp only [List.length_map, List.length_range'] at h1
    simp [List.getElem?_eq_getElem h1]

theorem osStat_enoent_lookup (fs : FS) (f : String) (hstat : osStat fs f = some GoError.enoent) :
    fs.lookup f = none := by
  unfold osStat at hstat
  cases h : fs.lookup f with
  | none => rfl
  | some c => rw [h] at hstat; exact absurd hstat (by simp)

theorem osOpenFile_fresh (fs : FS) (f : String) (hstat : osStat fs f = some GoError.enoent)
    (hname : f ≠ "") : osOpenFile fs f = Except.ok (fs ++ [(f, [])]) := by
  unfold osOpenFile
  rw [hstat]
  simp only [if_neg hname]

theorem runTasks_raceFree (net : Network) (url : String) (rangeStrings : List String)
    (sched : Schedule) (hrace : sched.overlap = false) :
    runTasks net url rangeStrings sched
      = Except.ok (runInOrder net url rangeStrings sched.order) := by
  unfold runTasks
  simp [hrace]

theorem fetchAndWrite_ok (net : Network) (url filename : String) (rangeStrings : List String)
    (fs : FS) (sched : Schedule)
    (hstat : osStat fs filename = some GoError.enoent) (hname : filename ≠ "")
    (hget : ∀ s ∈ rangeStrings, ∃ r, net.get url s = Except.ok r ∧ r.bodyErr = none)
    (hrace : sched.overlap = false)
    (hsched : sched.order.Perm (List.range rangeStrings.length)) :
    ∃ reqs, fetchAndWrite net url filename rangeStrings fs sched
      = Except.ok ⟨none,
          fs ++ [(filename, (rangeStrings.map (fun s => bodyOf (net.get url s))).flatten)],
          reqs⟩ := by
  have hfile := osStat_enoent_lookup fs filename hstat
  have hnd : sched.order.Nodup := hsched.nodup_iff.mpr (List.nodup_range _)
  have hmem : ∀ i, i ∈ sched.order ↔ i < rangeStrings.length := by
    intro i
    rw [hsched.mem_iff, List.mem_range]
  have hget2 : ∀ s ∈ rangeStrings, ∃ r, net.get url s = Except.ok r := by
    intro s hs
    obtain ⟨r, hr, _⟩ := hget s hs
    exact ⟨r, hr⟩
  obtain ⟨h1, h2, _, h4⟩ :=
    runInOrder_all_ok net url rangeStrings hget2 sched.order hnd (fun i hi => (hmem i).mp hi)
  have hlen : (runInOrder net url rangeStrings sched.order).responses.length
      = rangeStrings.length := by
    rw [h2, hsched.length_eq, List.length_range]
  have hm : ∀ i, i < rangeStrings.length →
      ∃ r, mapIndex (runInOrder net url rangeStrings sched.order).responses i = some r
        ∧ r.bodyErr = none
        ∧ r.Body = (fun i => match rangeStrings[i]? with
            | some s => bodyOf (net.get url s)
            | none => []) i := by
    intro i hi
    obtain ⟨r, hr, hidx⟩ := h4 i hi ((hmem i).mpr hi)
    obtain ⟨r2, hr2, hb⟩ := hget rangeStrings[i] (List.getElem_mem hi)
    rw [hr] at hr2
    have hrr : r = r2 := by injection hr2
    subst hrr
    refine ⟨r, hidx, hb, ?_⟩
    simp only [List.getElem?_eq_getElem hi, hr, bodyOf]
  have hw := writeLoop_ok (runInOrder net url rangeStrings sched.order).responses filename
    rangeStrings.length _ hm rangeStrings.length 0 (fs ++ [(filename, [])]) (by omega)
  rw [map_range_getElem, fileWrite_created fs filename _ _ hfile, List.nil_append] at hw
  refine ⟨(runInOrder net url rangeStrings sched.order).requests, ?_⟩
  unfold fetchAndWrite
  simp only [runTasks_raceFree net url rangeStrings sched hrace, h1,
    osOpenFile_fresh fs filename hstat hname, hlen, hw]

theorem foldl_err_sticky (net : Network) (url : String) (rangeStrings : List String)
    (sched : List Nat) (st : FetchState) (e : GoError) (h : st.err = some e) :
    (sched.foldl
      (fun st i =>
        match rangeStrings[i]? with
        | none => st
        | some rangeString => fetchTask net url i rangeString st) st).err = some e := by
  induction sched generalizing st with
  | nil => exact h
  | cons i l ih =>
    rw [List.foldl_cons]
    apply ih
    cases hs : rangeStrings[i]? with
    | none => exact h
    | some s =>
      simp only [fetchTask]
      cases hg : net.get url s with
      | error e2 => simp [h]
      | ok r => simp [h]

theorem foldl_err_of_failure (net : Network) (url : String) (rangeStrings : List String)
    (sched : List Nat) (st : FetchState) (i : Nat) (s : String) (e : GoError)
    (hi : i ∈ sched) (hs : rangeStrings[i]? = some s) (hg : net.get url s = Except.error e) :
    ∃ e2, (sched.foldl
      (fun st i =>
        match rangeStrings[i]? with
        | none => st
        | some rangeString => fetchTask net url i rangeString st) st).err = some e2 := by
  induction sched generalizing st with
  | nil => simp at hi
  | cons j l ih =>
    rw [List.foldl_cons]
    rcases List.mem_cons.mp hi with rfl | hil
    · cases hst : st.err with
      | none =>
        refine ⟨e, ?_⟩
        apply foldl_err_sticky
        simp only [hs, fetchTask, hg, hst]
      | some e0 =>
        refine ⟨e0, ?_⟩
        apply foldl_err_sticky
        simp only [hs, fetchTask, hg, hst]
    · exact ih _ hil

theorem fetchAndWrite_failure (net : Network) (url filename : String)
    (rangeStrings : List String) (fs : FS) (sched : Schedule) (i : Nat) (s : String)
    (e : GoError) (hrace : sched.overlap = false) (hi : i ∈ sched.order)
    (hs : rangeStrings[i]? = some s) (hg : net.get url s = Except.error e) :
    ∃ e2 reqs, fetchAndWrite net url filename rangeStrings fs sched
      = Except.ok ⟨some e2, fs, reqs⟩ := by
  obtain ⟨e2, he2⟩ :=
    foldl_err_of_failure net url rangeStrings sched.order ⟨[], none, [], 0⟩ i s e hi hs hg
  have herr : (runInOrder net url rangeStrings sched.order).err = some e2 := he2
  refine ⟨e2, (runInOrder net url rangeStrings sched.order).requests, ?_⟩
  unfold fetchAndWrite
  simp only [runTasks_raceFree net url rangeStrings sched hrace, herr]

theorem download_unfold (d : downloader) (net : Network) (fs : FS) (sched : Schedule)
    (resp : Response) (rangeStrings : List String)
    (hstat : osStat fs (pathSplit d.url).2 = some GoError.enoent)
    (hhead : net.head d.url = Except.ok resp)
    (hranges : toRangeStrings resp.ContentLength d.parallelism = Except.ok (rangeStrings, none)) :
    download d net fs sched
      = match fetchAndWrite net d.url (pathSplit d.url).2 rangeStrings fs sched with
        | Except.error p => Except.error p
        | Except.ok o => Except.ok ⟨o.err, o.fs, Request.head d.url :: o.requests⟩ := by
  unfold download
  simp only [hstat, osIsNotExist, hhead, hranges]
  rfl

theorem runInOrder_nil (net : Network) (url : String) (order : List Nat) :
    runInOrder net url [] order = ⟨[], none, [], 0⟩ := by
  unfold runInOrder
  induction order with
  | nil => rfl
  | cons i l ih => rw [List.foldl_cons]; simp [ih]

theorem runTasks_nil (net : Network) (url : String) (sched : Schedule) :
    runTasks net url [] sched = Except.ok ⟨[], none, [], 0⟩ := by
  unfold runTasks
  rw [runInOrder_nil]
  simp

theorem digitChar_toNat (d : Nat) (hd : d < 10) : (Nat.digitChar d).toNat = 48 + d := by
  interval_cases d <;> rfl

theorem toDigitsCore_append (f n : Nat) (ds : List Char) :
    Nat.toDigitsCore 10 f n ds = Nat.toDigitsCore 10 f n [] ++ ds := by
  induction f generalizing n ds with
  | zero => simp [Nat.toDigitsCore]
  | succ f ih =>
    simp only [Nat.toDigitsCore]
    split
    · simp
    · rw [ih (n / 10) (Nat.digitChar (n % 10) :: ds), ih (n / 10) [Nat.digitChar (n % 10)]]
      simp

theorem toDigitsCore_fuel (f g n : Nat) (hf : n < f) (hg : n < g) (ds : List Char) :
    Nat.toDigitsCore 10 f n ds = Nat.toDigitsCore 10 g n ds := by
  induction f generalizing g n ds with
  | zero => omega
  | succ f ih =>
    cases g with
    | zero => omega
    | succ g =>
      simp only [Nat.toDigitsCore]
      split
      · rfl
      · rename_i hne
        have h1 : n / 10 < n := Nat.div_lt_self (by omega) (by decide)
        exact ih g (n / 10) (by omega) (by omega) _

theorem toDigits_step (n : Nat) (hn : 10 ≤ n) :
    Nat.toDigits 10 n = Nat.toDigits 10 (n / 10) ++ [Nat.digitChar (n % 10)] := by
  unfold Nat.toDigits
  have hne : ¬ (n / 10 = 0) := by omega
  rw [Nat.toDigitsCore]
  simp only [hne, if_false]
  rw [toDigitsCore_append, toDigitsCore_fuel n (n / 10 + 1) (n / 10) (by omega) (by omega)]

theorem toDigits_small (n : Nat) (hn : n < 10) : Nat.toDigits 10 n = [Nat.digitChar n] := by
  unfold Nat.toDigits
  rw [Nat.toDigitsCore]
  have h0 : n / 10 = 0 := by omega
  have h1 : n % 10 = n := by omega
  simp [h0, h1]

theorem parseDigits_append (l : List Char) (c : Char) (acc : Nat) :
    parseDigits (l ++ [c]) acc
      = match parseDigits l acc with
        | none => none
        | some v => if 48 ≤ c.toNat ∧ c.toNat ≤ 57 then some (v * 10 + (c.toNat - 48)) else none := by
  induction l generalizing acc with
  | nil => simp [parseDigits]
  | cons x l ih =>
    simp only [List.cons_append, parseDigits]
    split
    · exact ih _
    · rfl

theorem parseDigits_toDigits (n : Nat) : parseDigits (Nat.toDigits 10 n) 0 = some n := by
  induction n using Nat.strong_induction_on with
  | _ n ih =>
    by_cases hn : n < 10
    · rw [toDigits_small n hn]
      have := digitChar_toNat n hn
      simp only [parseDigits, this]
      have hc : 48 ≤ 48 + n ∧ 48 + n ≤ 57 := by omega
      simp [hc]
    · rw [toDigits_step n (by omega), parseDigits_append, ih (n / 10) (by omega)]
      have := digitChar_toNat (n % 10) (by omega)
      simp only [this]
      have hc : 48 ≤ 48 + n % 10 ∧ 48 + n % 10 ≤ 57 := by omega
      simp only [hc, and_self, if_true]
      congr 1
      omega

theorem parseDigits_digits (l : List Char) (acc v : Nat) (h : parseDigits l acc = some v) :
    ∀ c ∈ l, 48 ≤ c.toNat ∧ c.toNat ≤ 57 := by
  induction l generalizing acc with
  | nil => simp
  | cons x l ih =>
    simp only [parseDigits] at h
    split at h
    · rename_i hx
      intro c hc
      rcases List.mem_cons.mp hc with rfl | hc
      · exact hx
      · exact ih _ h c hc
    · exact absurd h (by simp)

theorem toDigits_digits (n : Nat) : ∀ c ∈ Nat.toDigits 10 n, 48 ≤ c.toNat ∧ c.toNat ≤ 57 :=
  parseDigits_digits _ 0 n (parseDigits_toDigits n)

theorem toDigits_ne_nil (n : Nat) : Nat.toDigits 10 n ≠ [] := by
  intro h
  by_cases hn : n < 10
  · rw [toDigits_small n hn] at h; simp at h
  · rw [toDigits_step n (by omega)] at h; simp at h

theorem toString_int_toList (n : Nat) : (toString (n : Int)).toList = Nat.toDigits 10 n := by
  rfl

theorem strconvAtoi_toDigits (n : Nat) (hn : n < 2 ^ 63) :
    strconvAtoi (Nat.toDigits 10 n) = (n : Int) := by
  have hp := parseDigits_toDigits n
  have hd := toDigits_digits n
  have hne := toDigits_ne_nil n
  cases hl : Nat.toDigits 10 n with
  | nil => exact absurd hl hne
  | cons c cs =>
    rw [hl] at hp hd
    have hc := hd c (by simp)
    have h1 : c ≠ '-' := by
      intro h; rw [h] at hc; revert hc; decide
    have h2 : c ≠ '+' := by
      intro h; rw [h] at hc; revert hc; decide
    simp only [strconvAtoi, h1, h2, or_self, if_false, hp, clampInt64, decide_False]
    have hn2 : n < 9223372036854775808 := by
      have : (2 : Nat) ^ 63 = 9223372036854775808 := by norm_num
      omega
    simp only [Bool.false_eq_true, if_false]
    norm_num
    intro h
    omega

theorem stringsSplit_none (sep : Char) (l : List Char) (h : ∀ c ∈ l, c ≠ sep) :
    stringsSplit sep l = [l] := by
  induction l with
  | nil => rfl
  | cons x l ih =>
    have hx : x ≠ sep := h x (by simp)
    rw [stringsSplit, if_neg hx, ih (fun c hc => h c (by simp [hc]))]

theorem stringsSplit_sep (sep : Char) (l r : List Char) (h : ∀ c ∈ l, c ≠ sep) :
    stringsSplit sep (l ++ sep :: r) = l :: stringsSplit sep r := by
  induction l with
  | nil => simp [stringsSplit]
  | cons x l ih =>
    have hx : x ≠ sep := h x (by simp)
    rw [List.cons_append, stringsSplit, if_neg hx, ih (fun c hc => h c (by simp [hc]))]

theorem header_toList (m n : Nat) :
    ("bytes=" ++ toString (m : Int) ++ "-" ++ toString (n : Int)).toList
      = ['b', 'y', 't', 'e', 's'] ++ '=' :: (Nat.toDigits 10 m ++ '-' :: Nat.toDigits 10 n) := by
  simp only [String.toList, String.data_append, toString_int_toList]
  have h1 : (toString (m : Int)).data = Nat.toDigits 10 m := rfl
  have h2 : (toString (n : Int)).data = Nat.toDigits 10 n := rfl
  rw [h1, h2]
  simp

theorem digit_ne (c : Char) (hc : 48 ≤ c.toNat ∧ c.toNat ≤ 57) : c ≠ '=' ∧ c ≠ '-' := by
  constructor
  · intro h; rw [h] at hc; revert hc; decide
  · intro h; rw [h] at hc; revert hc; decide

theorem rangeBody_serves (content : List Byte) (a b : Int) (h0 : 0 ≤ a) (hab : a ≤ b)
    (hb : b < content.length) (hlen : (content.length : Int) ≤ 2 ^ 63) :
    rangeBody content ("bytes=" ++ toString a ++ "-" ++ toString b)
      = Except.ok (bytesBetween content a b) := by
  obtain ⟨m, rfl⟩ : ∃ m : Nat, a = m := ⟨a.toNat, (Int.toNat_of_nonneg h0).symm⟩
  obtain ⟨n, rfl⟩ : ∃ n : Nat, b = n := ⟨b.toNat, (Int.toNat_of_nonneg (by omega)).symm⟩
  have hpow : ((2 : Int) ^ 63) = 9223372036854775808 := by norm_num
  have hpowN : ((2 : Nat) ^ 63) = 9223372036854775808 := by norm_num
  have hm63 : m < 2 ^ 63 := by omega
  have hn63 : n < 2 ^ 63 := by omega
  have hl := header_toList m n
  have hne : ¬ ("bytes=" ++ toString (m : Int) ++ "-" ++ toString (n : Int) = "") := by
    intro h
    rw [h] at hl
    simp at hl
  have hdm := toDigits_digits m
  have hdn := toDigits_digits n
  have hrest : ∀ c ∈ Nat.toDigits 10 m ++ '-' :: Nat.toDigits 10 n, c ≠ '=' := by
    intro c hc
    rcases List.mem_append.mp hc with h | h
    · exact (digit_ne c (hdm c h)).1
    · rcases List.mem_cons.mp h with rfl | h
      · decide
      · exact (digit_ne c (hdn c h)).1
  have hs1 : stringsSplit '='
      (['b', 'y', 't', 'e', 's'] ++ '=' :: (Nat.toDigits 10 m ++ '-' :: Nat.toDigits 10 n))
      = [['b', 'y', 't', 'e', 's'], Nat.toDigits 10 m ++ '-' :: Nat.toDigits 10 n] := by
    rw [stringsSplit_sep _ _ _ (by decide), stringsSplit_none _ _ hrest]
  have hs2 : stringsSplit '-' (Nat.toDigits 10 m ++ '-' :: Nat.toDigits 10 n)
      = [Nat.toDigits 10 m, Nat.toDigits 10 n] := by
    rw [stringsSplit_sep _ _ _ (fun c hc => (digit_ne c (hdm c hc)).2),
      stringsSplit_none _ _ (fun c hc => (digit_ne c (hdn c hc)).2)]
  unfold rangeBody
  rw [if_neg hne, hl, hs1]
  simp only [List.getElem?_cons_succ, List.getElem?_cons_zero, hs2,
    strconvAtoi_toDigits m hm63, strconvAtoi_toDigits n hn63]
  unfold goSlice bytesBetween
  have hcond : 0 ≤ (m : Int) ∧ (m : Int) ≤ (n : Int) + 1 ∧ (n : Int) + 1 ≤ (content.length : Int) := by
    omega
  rw [if_pos hcond]

theorem plan_bodies_concat (content : List Byte) (p : Int) (serve : String → List Byte)
    (hL : 1 ≤ content.length) (hp : 1 ≤ p)
    (hserve : ∀ a b : Int, 0 ≤ a → a ≤ b → b < content.length →
      serve ("bytes=" ++ toString a ++ "-" ++ toString b) = bytesBetween content a b) :
    (((remainderToLastPlan content.length (content.length / min p (content.length : Int))
        (min p (content.length : Int)).toNat).map sprintfBytes).map serve).flatten
      = content := by
  have hL1 : (1 : Int) ≤ (content.length : Int) := by exact_mod_cast hL
  have hp0 : ¬ (p = 0) := by omega
  obtain ⟨_, hch⟩ := plan_facts content.length p hL1 (by omega)
  simp only [hp0, if_false] at hch
  rw [List.map_map]
  have hmap : ∀ rs : List rangeStruct,
      (∀ r ∈ rs, 0 ≤ r.first ∧ r.first ≤ r.last ∧ r.last < (content.length : Int)) →
      rs.map (serve ∘ sprintfBytes) = rs.map (fun r => bytesBetween content r.first r.last) := by
    intro rs hrs
    apply List.map_congr_left
    intro r hr
    obtain ⟨h1, h2, h3⟩ := hrs r hr
    exact hserve r.first r.last h1 h2 h3
  rw [hmap _ (chained_bounds hch).2, chained_flatten content hch (le_refl 0)]
  simp

theorem toRangeStrings_plan (L p : Int) (hL : 1 ≤ L) (hp : 1 ≤ p) :
    toRangeStrings L p
      = Except.ok ((remainderToLastPlan L (L / min p L) (min p L).toNat).map sprintfBytes,
          none) := by
  have hp0 : ¬ (p = 0) := by omega
  have h := toRangeStrings_of_structs (toRangeStructs_eq L p hL (by omega))
  simp only [hp0, if_false] at h
  exact h

theorem dummyServer_head (content : List Byte) (failureRate : Int) (rolls : String → Int)
    (url : String) :
    (dummyServer content failureRate rolls).head url
      = Except.ok ⟨206, content.length, [], none⟩ := by
  simp [dummyServer, handler, rangeBody]

theorem dummyServer_get (content : List Byte) (failureRate : Int) (rolls : String → Int)
    (url : String) (a b : Int) (h0 : 0 ≤ a) (hab : a ≤ b) (hb : b < content.length)
    (hlen : (content.length : Int) ≤ 2 ^ 63)
    (hroll : failureRate ≤ rolls ("bytes=" ++ toString a ++ "-" ++ toString b)) :
    (dummyServer content failureRate rolls).get url
        ("bytes=" ++ toString a ++ "-" ++ toString b)
      = Except.ok ⟨206, (bytesBetween content a b).length, bytesBetween content a b, none⟩ := by
  have hnot : ¬ (rolls ("bytes=" ++ toString a ++ "-" ++ toString b) < failureRate) := by omega
  simp only [dummyServer, handler, hnot, and_false, if_false,
    rangeBody_serves content a b h0 hab hb hlen]

theorem download_dummyServer (content : List Byte) (p : Int) (hL : 1 ≤ content.length)
    (hp : 1 ≤ p) (url : String) (fs : FS) (sched : Schedule) (failureRate : Int)
    (rolls : String → Int)
    (hlen : (content.length : Int) ≤ 2 ^ 63)
    (hstat : osStat fs (pathSplit url).2 = some GoError.enoent)
    (hname : (pathSplit url).2 ≠ "")
    (hrolls : ∀ h, failureRate ≤ rolls h)
    (hrace : sched.overlap = false)
    (hsched : sched.order.Perm (List.range (min p (content.length : Int)).toNat)) :
    ∃ reqs, download ⟨url, p⟩ (dummyServer content failureRate rolls) fs sched
      = Except.ok ⟨none, fs ++ [((pathSplit url).2, content)], reqs⟩ := by
  have hL1 : (1 : Int) ≤ (content.length : Int) := by exact_mod_cast hL
  have hp0 : ¬ (p = 0) := by omega
  obtain ⟨_, hch⟩ := plan_facts content.length p hL1 (by omega)
  simp only [hp0, if_false] at hch
  have hranges := toRangeStrings_plan content.length p hL1 hp
  have hgetall : ∀ s ∈ (remainderToLastPlan content.length
      (content.length / min p (content.length : Int))
      (min p (content.length : Int)).toNat).map sprintfBytes,
      ∃ r, (dummyServer content failureRate rolls).get url s = Except.ok r
        ∧ r.bodyErr = none := by
    intro s hs
    obtain ⟨r, hr, rfl⟩ := List.mem_map.mp hs
    obtain ⟨h1, h2, h3⟩ := (chained_bounds hch).2 r hr
    exact ⟨_, dummyServer_get content failureRate rolls url r.first r.last h1 h2 h3 hlen
      (hrolls _), rfl⟩
  have hsched2 : sched.order.Perm (List.range ((remainderToLastPlan content.length
      (content.length / min p (content.length : Int))
      (min p (content.length : Int)).toNat).map sprintfBytes).length) := by
    rw [List.length_map, remainderToLastPlan_length]; exact hsched
  obtain ⟨reqs, hfw⟩ := fetchAndWrite_ok (dummyServer content failureRate rolls) url
    (pathSplit url).2 _ fs sched hstat hname hgetall hrace hsched2
  have hserve : ∀ a b : Int, 0 ≤ a → a ≤ b → b < content.length →
      (fun h => bodyOf ((dummyServer content failureRate rolls).get url h))
        ("bytes=" ++ toString a ++ "-" ++ toString b) = bytesBetween content a b := by
    intro a b h1 h2 h3
    simp only [dummyServer_get content failureRate rolls url a b h1 h2 h3 hlen (hrolls _),
      bodyOf]
  rw [plan_bodies_concat content p _ hL hp hserve] at hfw
  refine ⟨Request.head url :: reqs, ?_⟩
  rw [download_unfold ⟨url, p⟩ (dummyServer content failureRate rolls) fs sched
    ⟨206, content.length, [], none⟩ _ hstat (dummyServer_head content failureRate rolls url)
    hranges]
  simp only [hfw]

/-- Against a server that ignores the `Range` header and answers every GET with status 200
and the full content (of length `L ≥ 1`), a run of `download` with the parallelism 8 of
`newDownloader` in which no two writes to the map overlap returns nil and leaves a file
holding the content `min 8 L` times, `min 8 L` being the number of range strings. -/
theorem rangeIgnoring_raceFree (content : List Byte) (url : String) (net : Network)
    (fs : FS) (sched : Schedule) (resp : Response)
    (hL : 1 ≤ content.length)
    (hstat : osStat fs (pathSplit url).2 = some GoError.enoent)
    (hname : (pathSplit url).2 ≠ "")
    (hhead : net.head url = Except.ok resp) (hlen : resp.ContentLength = content.length)
    (hget : ∀ h, ∃ r, net.get url h = Except.ok r ∧ r.StatusCode = 200 ∧ r.Body = content
      ∧ r.bodyErr = none)
    (hrace : sched.overlap = false)
    (hsched : sched.order.Perm (List.range (min 8 content.length))) :
    (∃ hs, toRangeStrings content.length 8 = Except.ok (hs, none)
      ∧ hs.length = min 8 content.length)
    ∧ ∃ reqs, download (newDownloader url) net fs sched
        = Except.ok ⟨none,
            fs ++ [((pathSplit url).2, (List.replicate (min 8 content.length) content).flatten)],
            reqs⟩ := by
  have hL1 : (1 : Int) ≤ (content.length : Int) := by exact_mod_cast hL
  have hstr := toRangeStrings_of_structs (toRangeStructs_eq content.length 8 hL1 (by decide))
  have h80 : ¬ ((8 : Int) = 0) := by decide
  simp only [h80, if_false] at hstr
  have hN : (min (8 : Int) (content.length : Int)).toNat = min 8 content.length := by omega
  have hlenhs : ((remainderToLastPlan content.length
      (content.length / min (8 : Int) content.length)
      (min (8 : Int) (content.length : Int)).toNat).map sprintfBytes).length
      = min 8 content.length := by
    rw [List.length_map, remainderToLastPlan_length, hN]
  refine ⟨⟨_, hstr, hlenhs⟩, ?_⟩
  have hranges : toRangeStrings resp.ContentLength (newDownloader url).parallelism
      = Except.ok ((remainderToLastPlan content.length
          (content.length / min (8 : Int) content.length)
          (min (8 : Int) (content.length : Int)).toNat).map sprintfBytes, none) := by
    rw [hlen]; exact hstr
  have hget2 : ∀ s ∈ (remainderToLastPlan content.length
      (content.length / min (8 : Int) content.length)
      (min (8 : Int) (content.length : Int)).toNat).map sprintfBytes,
      ∃ r, net.get url s = Except.ok r ∧ r.bodyErr = none := by
    intro s _
    obtain ⟨r, h1, _, _, h4⟩ := hget s
    exact ⟨r, h1, h4⟩
  have hsched2 : sched.order.Perm (List.range ((remainderToLastPlan content.length
      (content.length / min (8 : Int) content.length)
      (min (8 : Int) (content.length : Int)).toNat).map sprintfBytes).length) := by
    rw [hlenhs]; exact hsched
  obtain ⟨reqs, hfw⟩ := fetchAndWrite_ok net url (pathSplit url).2 _ fs sched hstat hname
    hget2 hrace hsched2
  have hbodies : ∀ (l : List String),
      (l.map (fun s => bodyOf (net.get url s))) = List.replicate l.length content := by
    intro l
    rw [← List.map_const]
    apply List.map_congr_left
    intro s _
    obtain ⟨r, h1, _, h3, _⟩ := hget s
    simp [h1, bodyOf, h3]
  rw [hbodies, hlenhs] at hfw
  refine ⟨Request.head url :: reqs, ?_⟩
  rw [download_unfold (newDownloader url) net fs sched resp _ hstat hhead hranges]
  have hurl : (newDownloader url).url = url := rfl
  rw [hurl, hfw]

theorem zero_length_divides_by_zero (p : Int) (hp : 0 ≤ p) :
    toRangeStrings 0 p = Except.error GoPanic.divideByZero := by
  unfold toRangeStrings toRangeStructs
  by_cases h0 : p = 0
  · subst h0; rfl
  · have hlt : (0 : Int) < p := by omega
    simp [h0, hlt]

theorem toRangeStructs_negative (L p : Int) (hL : L < 0) (hp : 1 ≤ p) :
    toRangeStructs L p = Except.ok [] := by
  unfold toRangeStructs
  have h0 : ¬ (p = 0) := by omega
  have hlt : L < p := by omega
  have hL0 : ¬ (L = 0) := by omega
  have hnat : L.toNat = 0 := Int.toNat_eq_zero.mpr (by omega)
  simp only [h0, if_false, hlt, if_true, hL0, hnat, rangeLoop]
  have hmod : L.tmod L = 0 := Int.tmod_self
  simp [hmod]

/-! ## Theorems about the claims -/

/-- C1: for `contentLength = L ≥ 1` and `parallelism ≥ 1`, `toRangeStrings` returns a nil error
and, in order, the strings `"bytes=" ++ decimal first ++ "-" ++ decimal last` of a non-empty
list of ranges `(first, last)` that partitions `[0, L-1]`: the first range starts at 0, every
range has `0 ≤ first ≤ last`, each range is followed by one starting right after it, the final
range ends at `L - 1`, every offset of `[0, L-1]` lies in exactly one range, and the range
sizes sum to `L`. -/
theorem toRangeStrings_partitions (L p : Int) (hL : 1 ≤ L) (hp : 1 ≤ p) :
    ∃ rs : List rangeStruct,
      toRangeStrings L p
          = Except.ok
              (rs.map (fun r => "bytes=" ++ toString r.first ++ "-" ++ toString r.last), none)
      ∧ toRangeStructs L p = Except.ok rs
      ∧ rs ≠ []
      ∧ rs.head?.map rangeStruct.first = some 0
      ∧ (∀ r ∈ rs, 0 ≤ r.first ∧ r.first ≤ r.last)
      ∧ (∀ (i : Nat) (a b : rangeStruct), rs[i]? = some a → rs[i + 1]? = some b →
          a.last + 1 = b.first)
      ∧ rs.getLast?.map rangeStruct.last = some (L - 1)
      ∧ (∀ x : Int, 0 ≤ x → x < L →
          rs.countP (fun r => decide (r.first ≤ x ∧ x ≤ r.last)) = 1)
      ∧ (rs.map (fun r => r.last - r.first + 1)).sum = L := by
  have heq := toRangeStructs_eq L p hL (by omega)
  obtain ⟨hq, hch⟩ := plan_facts L p hL (by omega)
  have hne : remainderToLastPlan L (L / (if p = 0 then 1 else min p L))
      (if p = 0 then 1 else min p L).toNat ≠ [] := by
    intro h0
    have hlen := remainderToLastPlan_length L (L / (if p = 0 then 1 else min p L))
      (if p = 0 then 1 else min p L).toNat
    rw [h0] at hlen
    simp only [List.length_nil] at hlen
    omega
  refine ⟨_, toRangeStrings_of_structs heq, heq, hne, chained_head hch hne, ?_,
    fun i a b ha hb => chained_adjacent hch i a b ha hb, chained_getLast hch hne, ?_, ?_⟩
  · intro r hr
    obtain ⟨h1, h2, _⟩ := (chained_bounds hch).2 r hr
    exact ⟨h1, h2⟩
  · intro x hx0 hxL
    exact (chained_countP hch x).2 hx0 hxL
  · have := chained_sum hch
    omega

theorem toRangeStrings_partitions_witness :
    ∃ rs : List rangeStruct,
      toRangeStrings 5 3
          = Except.ok
              (rs.map (fun r => "bytes=" ++ toString r.first ++ "-" ++ toString r.last), none)
      ∧ toRangeStructs 5 3 = Except.ok rs
      ∧ rs ≠ []
      ∧ rs.head?.map rangeStruct.first = some 0
      ∧ (∀ r ∈ rs, 0 ≤ r.first ∧ r.first ≤ r.last)
      ∧ (∀ (i : Nat) (a b : rangeStruct), rs[i]? = some a → rs[i + 1]? = some b →
          a.last + 1 = b.first)
      ∧ rs.getLast?.map rangeStruct.last = some (5 - 1)
      ∧ (∀ x : Int, 0 ≤ x → x < 5 →
          rs.countP (fun r => decide (r.first ≤ x ∧ x ≤ r.last)) = 1)
      ∧ (rs.map (fun r => r.last - r.first + 1)).sum = 5 :=
  toRangeStrings_partitions 5 3 (by decide) (by decide)

/-- C2: for `L ≥ 1` and `parallelism = p ≥ 1`, with `q = min p L` and `base = L / q`,
`toRangeStrings L p` returns exactly the `q` strings whose `i`-th one, for `i < q - 1`, is
`"bytes=" ++ decimal (i * base) ++ "-" ++ decimal ((i + 1) * base - 1)` and whose last one is
`"bytes=" ++ decimal ((q - 1) * base) ++ "-" ++ decimal (L - 1)`; when `p ≥ L` these are the
`L` singleton ranges `bytes=i-i`; `(5, 3)` gives `bytes=0-0`, `bytes=1-1`, `bytes=2-4`, and
`(5, 6)` gives the same five singletons as `(5, 5)`. -/
theorem toRangeStrings_closed_form (L p : Int) (hL : 1 ≤ L) (hp : 1 ≤ p) :
    toRangeStrings L p
      = Except.ok
          ((List.range (min p L).toNat).map
            (fun (i : Nat) =>
              if i + 1 < (min p L).toNat then
                "bytes=" ++ toString ((i : Int) * (L / min p L)) ++ "-"
                  ++ toString (((i : Int) + 1) * (L / min p L) - 1)
              else
                "bytes=" ++ toString ((min p L - 1) * (L / min p L)) ++ "-"
                  ++ toString (L - 1)),
            none)
    ∧ (L ≤ p →
        toRangeStrings L p
          = Except.ok
              ((List.range L.toNat).map
                (fun (i : Nat) => "bytes=" ++ toString (i : Int) ++ "-" ++ toString (i : Int)),
                none))
    ∧ toRangeStrings 5 3 = Except.ok (["bytes=0-0", "bytes=1-1", "bytes=2-4"], none)
    ∧ toRangeStrings 5 5
        = Except.ok (["bytes=0-0", "bytes=1-1", "bytes=2-2", "bytes=3-3", "bytes=4-4"], none)
    ∧ toRangeStrings 5 6 = toRangeStrings 5 5 := by
  have hp0 : ¬ (p = 0) := by omega
  have h := toRangeStrings_of_structs (toRangeStructs_eq L p hL (by omega))
  simp only [hp0, if_false] at h
  have hq1 : 1 ≤ min p L := le_min hp hL
  have hcast : (((min p L).toNat : Nat) : Int) = min p L := Int.toNat_of_nonneg (by omega)
  have hmain : toRangeStrings L p
      = Except.ok
          ((List.range (min p L).toNat).map
            (fun (i : Nat) =>
              if i + 1 < (min p L).toNat then
                "bytes=" ++ toString ((i : Int) * (L / min p L)) ++ "-"
                  ++ toString (((i : Int) + 1) * (L / min p L) - 1)
              else
                "bytes=" ++ toString ((min p L - 1) * (L / min p L)) ++ "-"
                  ++ toString (L - 1)),
            none) := by
    rw [h, remainderToLastPlan, List.map_map]
    congr 2
    apply List.map_congr_left
    intro i hi
    have hi2 : i < (min p L).toNat := List.mem_range.mp hi
    simp only [Function.comp, sprintfBytes]
    by_cases hlast : i + 1 = (min p L).toNat
    · have hnlt : ¬ (i + 1 < (min p L).toNat) := by omega
      have hi3 : (i : Int) = min p L - 1 := by omega
      simp only [if_pos hlast, if_neg hnlt, hi3]
    · have hlt : i + 1 < (min p L).toNat := by omega
      simp only [if_neg hlast, if_pos hlt]
  refine ⟨hmain, ?_, rfl, rfl, rfl⟩
  intro hLp
  rw [hmain]
  have hmin : min p L = L := min_eq_right hLp
  rw [hmin]
  congr 2
  apply List.map_congr_left
  intro i hi
  have hi2 : i < L.toNat := List.mem_range.mp hi
  have hdiv : L / L = 1 := Int.ediv_self (by omega)
  rw [hdiv]
  by_cases hlt : i + 1 < L.toNat
  · simp only [if_pos hlt, mul_one, add_sub_cancel_right]
  · have hi3 : (i : Int) = L - 1 := by omega
    simp only [if_neg hlt, mul_one, hi3]

theorem toRangeStrings_closed_form_witness :
    toRangeStrings 7 3 = Except.ok (["bytes=0-1", "bytes=2-3", "bytes=4-6"], none) :=
  (toRangeStrings_closed_form 7 3 (by decide) (by decide)).1

/-- C3: for a content of length `L ≥ 1` and a parallelism `p ≥ 1`, if the server answers the
GET carrying the header `bytes=a-b` with exactly the bytes `a..b` of the content, then
`toRangeStrings L p` returns headers whose bodies, concatenated in index order as the write
loop of `download` does, are exactly the content.  The dummy server is such a server (for a
content of at most `2^63` bytes, when it injects no failure): a run of `download` from it in
which the target file does not exist and no two writes to the map `responses` overlap, under
any completion order of the tasks, creates a file holding exactly the content. -/
theorem ranged_bodies_concat (content : List Byte) (p : Int) (serve : String → List Byte)
    (hL : 1 ≤ content.length) (hp : 1 ≤ p)
    (hserve : ∀ a b : Int, 0 ≤ a → a ≤ b → b < content.length →
      serve ("bytes=" ++ toString a ++ "-" ++ toString b) = bytesBetween content a b) :
    (∃ hs, toRangeStrings content.length p = Except.ok (hs, none)
      ∧ (hs.map serve).flatten = content)
    ∧ ∀ (url : String) (fs : FS) (sched : Schedule) (failureRate : Int) (rolls : String → Int),
        (content.length : Int) ≤ 2 ^ 63 →
        osStat fs (pathSplit url).2 = some GoError.enoent → (pathSplit url).2 ≠ "" →
        (∀ h, failureRate ≤ rolls h) →
        sched.overlap = false →
        sched.order.Perm (List.range (min p (content.length : Int)).toNat) →
        ∃ reqs, download ⟨url, p⟩ (dummyServer content failureRate rolls) fs sched
          = Except.ok ⟨none, fs ++ [((pathSplit url).2, content)], reqs⟩ := by
  have hL1 : (1 : Int) ≤ (content.length : Int) := by exact_mod_cast hL
  refine ⟨⟨_, toRangeStrings_plan content.length p hL1 hp,
    plan_bodies_concat content p serve hL hp hserve⟩, ?_⟩
  intro url fs sched failureRate rolls hlen hstat hname hrolls hrace hsched
  exact download_dummyServer content p hL hp url fs sched failureRate rolls hlen hstat hname
    hrolls hrace hsched

theorem ranged_bodies_concat_witness :
    (∃ hs, toRangeStrings 5 2 = Except.ok (hs, none)
      ∧ (hs.map (fun h =>
            bodyOf ((dummyServer (bytesOf "ABCDE") 0 (fun _ => 0)).get
              "http://localhost:8080/foo.png" h))).flatten
          = bytesOf "ABCDE")
    ∧ toRangeStrings 5 2 = Except.ok (["bytes=0-1", "bytes=2-4"], none)
    ∧ rangeBody (bytesOf "ABCDE") "bytes=0-1" = Except.ok (bytesOf "AB")
    ∧ rangeBody (bytesOf "ABCDE") "bytes=2-4" = Except.ok (bytesOf "CDE")
    ∧ download ⟨"http://localhost:8080/foo.png", 2⟩ (dummyServer (bytesOf "ABCDE") 0 (fun _ => 0))
        [] ⟨[1, 0], false⟩
      = Except.ok ⟨none, [("foo.png", bytesOf "ABCDE")],
          [Request.head "http://localhost:8080/foo.png",
            Request.get "http://localhost:8080/foo.png" "bytes=2-4",
            Request.get "http://localhost:8080/foo.png" "bytes=0-1"]⟩ :=
  ⟨(ranged_bodies_concat (bytesOf "ABCDE") 2
      (fun h =>
        bodyOf ((dummyServer (bytesOf "ABCDE") 0 (fun _ => 0)).get
          "http://localhost:8080/foo.png" h))
      (by decide) (by decide)
      (by
        intro a b h1 h2 h3
        have h4 : b < 5 := h3
        have h5 : a < 5 := by omega
        have h6 : 0 ≤ b := by omega
        interval_cases a <;> interval_cases b <;> rfl)).1,
    rfl, rfl, rfl, rfl⟩

/-- C4: once every fetch task has succeeded and stored its response under its index (no two
of the writes to the map overlapped), the bytes `download` writes to the output file are
`body[0] ++ body[1] ++ ... ++ body[N-1]`, whatever the order in which the tasks completed; two
runs that differ only in that order write the same file. -/
theorem reassembly_in_index_order (net : Network) (url filename : String)
    (rangeStrings : List String) (fs : FS) (sched1 sched2 : Schedule)
    (hstat : osStat fs filename = some GoError.enoent) (hname : filename ≠ "")
    (hget : ∀ s ∈ rangeStrings, ∃ r, net.get url s = Except.ok r ∧ r.bodyErr = none)
    (hrace1 : sched1.overlap = false) (hrace2 : sched2.overlap = false)
    (h1 : sched1.order.Perm (List.range rangeStrings.length))
    (h2 : sched2.order.Perm (List.range rangeStrings.length)) :
    ∃ reqs1 reqs2,
      fetchAndWrite net url filename rangeStrings fs sched1
        = Except.ok ⟨none,
            fs ++ [(filename, (rangeStrings.map (fun s => bodyOf (net.get url s))).flatten)],
            reqs1⟩
      ∧ fetchAndWrite net url filename rangeStrings fs sched2
        = Except.ok ⟨none,
            fs ++ [(filename, (rangeStrings.map (fun s => bodyOf (net.get url s))).flatten)],
            reqs2⟩ := by
  obtain ⟨r1, hr1⟩ :=
    fetchAndWrite_ok net url filename rangeStrings fs sched1 hstat hname hget hrace1 h1
  obtain ⟨r2, hr2⟩ :=
    fetchAndWrite_ok net url filename rangeStrings fs sched2 hstat hname hget hrace2 h2
  exact ⟨r1, r2, hr1, hr2⟩

theorem reassembly_in_index_order_witness :
    ∃ reqs1 reqs2,
      fetchAndWrite (dummyServer (bytesOf "ABCDE") 0 (fun _ => 0)) "http://localhost:8080/foo.png"
          "foo.png" ["bytes=0-1", "bytes=2-2", "bytes=3-4"] [] ⟨[0, 1, 2], false⟩
        = Except.ok ⟨none, [("foo.png", bytesOf "ABCDE")], reqs1⟩
      ∧ fetchAndWrite (dummyServer (bytesOf "ABCDE") 0 (fun _ => 0))
          "http://localhost:8080/foo.png" "foo.png" ["bytes=0-1", "bytes=2-2", "bytes=3-4"] []
          ⟨[2, 0, 1], false⟩
        = Except.ok ⟨none, [("foo.png", bytesOf "ABCDE")], reqs2⟩ :=
  reassembly_in_index_order (dummyServer (bytesOf "ABCDE") 0 (fun _ => 0))
    "http://localhost:8080/foo.png" "foo.png" ["bytes=0-1", "bytes=2-2", "bytes=3-4"] []
    ⟨[0, 1, 2], false⟩ ⟨[2, 0, 1], false⟩ rfl (by decide)
    (by
      intro s hs
      simp only [List.mem_cons, List.mem_singleton, List.not_mem_nil, or_false] at hs
      rcases hs with rfl | rfl | rfl <;> exact ⟨_, rfl, rfl⟩)
    rfl rfl (by decide) (by decide)

/-- C5 (counterexample): the dummy server answers the GET for `bytes=0-0` with its injected
500 and serves the other range; in the run where the two tasks complete in index order and
their writes to the map do not overlap, `download` returns nil and the output file exists,
holding the body of the error response followed by the byte of the second range. -/
theorem download_injected_500_counterexample :
    (dummyServer (bytesOf "AB") 50 flakyRolls).get "http://localhost:8080/foo.png" "bytes=0-0"
      = Except.ok ⟨500, 21, bytesOf "Internal Server Error", none⟩
    ∧ download (newDownloader "http://localhost:8080/foo.png")
        (dummyServer (bytesOf "AB") 50 flakyRolls) [] ⟨[0, 1], false⟩
      = Except.ok ⟨none, [("foo.png", bytesOf "Internal Server ErrorB")],
          [Request.head "http://localhost:8080/foo.png",
            Request.get "http://localhost:8080/foo.png" "bytes=0-0",
            Request.get "http://localhost:8080/foo.png" "bytes=1-1"]⟩ :=
  ⟨rfl, rfl⟩

/-- C5 (as amended): `download` does not look at the status of a response.  In a run in which
no two of the goroutines' writes to the map `responses` overlap (so that the run time does not
end the program): when every ranged GET returns a response, whatever its status, and the
bodies read cleanly, `download` returns nil and the output file holds the bodies in index
order; when one of the ranged GETs fails in transport (`client.Do` returns an error),
`download` returns a non-nil error and the file system is unchanged, so no output file exists,
even when all the other GETs succeeded. -/
theorem download_status_unchecked (d : downloader) (net : Network) (fs : FS) (sched : Schedule)
    (resp : Response) (rangeStrings : List String)
    (hstat : osStat fs (pathSplit d.url).2 = some GoError.enoent)
    (hname : (pathSplit d.url).2 ≠ "")
    (hhead : net.head d.url = Except.ok resp)
    (hranges : toRangeStrings resp.ContentLength d.parallelism = Except.ok (rangeStrings, none))
    (hrace : sched.overlap = false)
    (hsched : sched.order.Perm (List.range rangeStrings.length)) :
    ((∀ s ∈ rangeStrings, ∃ r, net.get d.url s = Except.ok r ∧ r.bodyErr = none) →
      ∃ reqs, download d net fs sched
        = Except.ok ⟨none,
            fs ++ [((pathSplit d.url).2,
              (rangeStrings.map (fun s => bodyOf (net.get d.url s))).flatten)],
            reqs⟩)
    ∧ ((∃ s ∈ rangeStrings, ∃ e, net.get d.url s = Except.error e) →
      ∃ e2 reqs, download d net fs sched = Except.ok ⟨some e2, fs, reqs⟩) := by
  rw [download_unfold d net fs sched resp rangeStrings hstat hhead hranges]
  constructor
  · intro hget
    obtain ⟨reqs, h⟩ := fetchAndWrite_ok net d.url (pathSplit d.url).2 rangeStrings fs sched
      hstat hname hget hrace hsched
    exact ⟨Request.head d.url :: reqs, by rw [h]⟩
  · rintro ⟨s, hs, e, he⟩
    obtain ⟨i, hi, hsi⟩ := List.getElem_of_mem hs
    have hmem : i ∈ sched.order := by
      rw [hsched.mem_iff, List.mem_range]; exact hi
    have hsome : rangeStrings[i]? = some s := by
      rw [List.getElem?_eq_getElem hi, hsi]
    obtain ⟨e2, reqs, h⟩ := fetchAndWrite_failure net d.url (pathSplit d.url).2 rangeStrings fs
      sched i s e hrace hmem hsome he
    exact ⟨e2, Request.head d.url :: reqs, by rw [h]⟩

theorem download_status_unchecked_witness :
    (∃ reqs, download (newDownloader "http://localhost:8080/foo.png")
        (dummyServer (bytesOf "AB") 50 flakyRolls) [] ⟨[1, 0], false⟩
      = Except.ok ⟨none, [("foo.png", bytesOf "Internal Server ErrorB")], reqs⟩)
    ∧ (∃ e2 reqs, download (newDownloader "http://localhost:8080/foo.png")
        (brokenLinkServer (bytesOf "AB") "bytes=0-0") [] ⟨[1, 0], false⟩
      = Except.ok ⟨some e2, [], reqs⟩) :=
  ⟨(download_status_unchecked (newDownloader "http://localhost:8080/foo.png")
      (dummyServer (bytesOf "AB") 50 flakyRolls) [] ⟨[1, 0], false⟩ ⟨206, 2, [], none⟩
      ["bytes=0-0", "bytes=1-1"] rfl (by decide) rfl rfl rfl (by decide)).1
      (by
        intro s hs
        simp only [List.mem_cons, List.mem_singleton, List.not_mem_nil, or_false] at hs
        rcases hs with rfl | rfl <;> exact ⟨_, rfl, rfl⟩),
    (download_status_unchecked (newDownloader "http://localhost:8080/foo.png")
      (brokenLinkServer (bytesOf "AB") "bytes=0-0") [] ⟨[1, 0], false⟩ ⟨206, 2, [], none⟩
      ["bytes=0-0", "bytes=1-1"] rfl (by decide) rfl rfl rfl (by decide)).2
      ⟨"bytes=0-0", by simp, GoError.transport "connection reset", rfl⟩⟩

/-- C6: when a file with the target filename (the last path element of the URL) exists,
`download` returns `errExist`, makes no network call (no HEAD, no GET) and leaves the file
system unchanged. -/
theorem download_existing_file (d : downloader) (net : Network) (fs : FS) (sched : Schedule)
    (c : List Byte) (h : fs.lookup (pathSplit d.url).2 = some c) :
    download d net fs sched = Except.ok ⟨some GoError.errExist, fs, []⟩ := by
  unfold download
  simp [osStat, h, osIsNotExist]

theorem download_existing_file_witness :
    download (newDownloader "http://localhost:8080/foo.png")
        (dummyServer (bytesOf "ABCDE") 0 (fun _ => 0)) [("foo.png", bytesOf "old")]
        ⟨[0, 1, 2, 3, 4], false⟩
      = Except.ok ⟨some GoError.errExist, [("foo.png", bytesOf "old")], []⟩ :=
  download_existing_file (newDownloader "http://localhost:8080/foo.png")
    (dummyServer (bytesOf "ABCDE") 0 (fun _ => 0)) [("foo.png", bytesOf "old")]
    ⟨[0, 1, 2, 3, 4], false⟩ (bytesOf "old") rfl

/-- C7 (counterexample): with content length -1 and parallelism 8, `toRangeStrings` returns a
nil error (and no range), and `download` goes on to create an empty file and return nil. -/
theorem toRangeStrings_negative_length_counterexample :
    toRangeStrings (-1) 8 = Except.ok ([], none)
    ∧ (¬ ∃ (hs : List String) (e : GoError), toRangeStrings (-1) 8 = Except.ok (hs, some e))
    ∧ download (newDownloader "http://localhost:8080/foo.png") (headOnlyServer (-1)) []
        ⟨[], false⟩
      = Except.ok ⟨none, [("foo.png", [])], [Request.head "http://localhost:8080/foo.png"]⟩ := by
  refine ⟨rfl, ?_, rfl⟩
  rintro ⟨hs, e, h⟩
  have h2 : toRangeStrings (-1) 8 = Except.ok ([], none) := rfl
  rw [h2] at h
  injection h with h3
  injection h3 with _ h4
  exact Option.noConfusion h4

/-- C7 (as amended): for `contentLength < 0` and `parallelism ≥ 1`, `toRangeStrings` returns a
nil error and the empty list of range strings; `download`, given such a length by its HEAD
request (the target file does not exist and has a non-empty name), then issues no GET, creates
an empty output file and returns nil, under every schedule. -/
theorem toRangeStrings_negative_length (L p : Int) (hL : L < 0) (hp : 1 ≤ p) :
    toRangeStrings L p = Except.ok ([], none)
    ∧ ∀ (url : String) (net : Network) (fs : FS) (sched : Schedule) (resp : Response),
        osStat fs (pathSplit url).2 = some GoError.enoent → (pathSplit url).2 ≠ "" →
        net.head url = Except.ok resp → resp.ContentLength = L →
        download ⟨url, p⟩ net fs sched
          = Except.ok ⟨none, fs ++ [((pathSplit url).2, [])], [Request.head url]⟩ := by
  have hr : toRangeStrings L p = Except.ok ([], none) := by
    have := toRangeStrings_of_structs (toRangeStructs_negative L p hL hp)
    simpa using this
  refine ⟨hr, ?_⟩
  intro url net fs sched resp hfile hname hhead hlen
  have hr2 : toRangeStrings resp.ContentLength (downloader.mk url p).parallelism
      = Except.ok ([], none) := by rw [hlen]; exact hr
  rw [download_unfold ⟨url, p⟩ net fs sched resp [] hfile hhead hr2]
  simp only [fetchAndWrite, runTasks_nil, osOpenFile_fresh fs _ hfile hname, List.length_nil,
    writeLoop]

theorem toRangeStrings_negative_length_witness :
    toRangeStrings (-1) 8 = Except.ok ([], none)
    ∧ download (newDownloader "http://localhost:8080/foo.png") (headOnlyServer (-1)) []
        ⟨[], true⟩
      = Except.ok ⟨none, [("foo.png", [])], [Request.head "http://localhost:8080/foo.png"]⟩ :=
  ⟨(toRangeStrings_negative_length (-1) 8 (by decide) (by decide)).1,
    (toRangeStrings_negative_length (-1) 8 (by decide) (by decide)).2
      "http://localhost:8080/foo.png" (headOnlyServer (-1)) [] ⟨[], true⟩ ⟨200, -1, [], none⟩
      rfl (by decide) rfl rfl⟩

/-- C8 (the code at the failing input): for a zero-length resource `toRangeStrings 0 8` panics
with an integer division by zero, and so does `download` after its HEAD request. -/
theorem toRangeStrings_zero_length_panics :
    toRangeStrings 0 8 = Except.error GoPanic.divideByZero
    ∧ download (newDownloader "http://localhost:8080/foo.png")
        (dummyServer [] 0 (fun _ => 0)) [] ⟨[], false⟩
      = Except.error GoPanic.divideByZero :=
  ⟨rfl, rfl⟩

/-- C9: for `L ≥ 1`, `toRangeStrings L 0` equals `toRangeStrings L 1`, and both return a nil
error with the single string `"bytes=0-" ++ decimal (L - 1)`. -/
theorem toRangeStrings_zero_parallelism (L : Int) (hL : 1 ≤ L) :
    toRangeStrings L 0 = toRangeStrings L 1
    ∧ toRangeStrings L 1 = Except.ok (["bytes=0-" ++ toString (L - 1)], none) := by
  have h0 := toRangeStrings_of_structs (toRangeStructs_eq L 0 hL (le_refl 0))
  have h1 := toRangeStrings_of_structs (toRangeStructs_eq L 1 hL (by decide))
  have hmin : min 1 L = 1 := min_eq_left hL
  simp only [if_true, one_ne_zero, if_false, hmin] at h0 h1
  have hplan : (remainderToLastPlan L (L / 1) (1 : Int).toNat).map sprintfBytes
      = ["bytes=0-" ++ toString (L - 1)] := by
    have : (1 : Int).toNat = 1 := rfl
    rw [this]
    simp only [remainderToLastPlan, List.range_succ, List.range_zero, List.nil_append,
      List.map_cons, List.map_nil, sprintfBytes]
    simp only [Nat.cast_zero, zero_mul, zero_add, if_true]
    have : "bytes=" ++ toString (0 : Int) ++ "-" = "bytes=0-" := by decide
    rw [this]
  rw [hplan] at h0 h1
  exact ⟨h0.trans h1.symm, h1⟩

theorem toRangeStrings_zero_parallelism_witness :
    toRangeStrings 5 0 = toRangeStrings 5 1
    ∧ toRangeStrings 5 1 = Except.ok (["bytes=0-4"], none) :=
  toRangeStrings_zero_parallelism 5 (by decide)

/-- C10 (the code at the failing input): against a server that ignores the `Range` header
and answers every GET with status 200 and the three bytes `ABC`, a run of `download` in which
two of the goroutines' writes to the map `responses` overlap is ended by the run time with
`fatal error: concurrent map writes` and returns nothing; the run with the same completion
order and no overlap returns nil and writes the content three times. -/
theorem download_range_ignoring_server_aborts :
    download (newDownloader "http://localhost:8080/foo.png")
        (rangeIgnoringServer (bytesOf "ABC")) [] ⟨[2, 0, 1], true⟩
      = Except.error GoPanic.concurrentMapWrites
    ∧ download (newDownloader "http://localhost:8080/foo.png")
        (rangeIgnoringServer (bytesOf "ABC")) [] ⟨[2, 0, 1], false⟩
      = Except.ok ⟨none, [("foo.png", bytesOf "ABCABCABC")],
          [Request.head "http://localhost:8080/foo.png",
            Request.get "http://localhost:8080/foo.png" "bytes=2-2",
            Request.get "http://localhost:8080/foo.png" "bytes=0-0",
            Request.get "http://localhost:8080/foo.png" "bytes=1-1"]⟩ :=
  ⟨rfl, rfl⟩

end ParallelDownload
